import Mathlib

/-!
Verification of the version-range matching and classification engine of
tkr-npm-scan.  JavaScript strings are embedded as `List Char`; each
definition mirrors one source function.
-/

namespace NpmScan

/-- Characters treated as whitespace by JavaScript `String.prototype.trim`
and Go `strings.TrimSpace` (ASCII subset). -/
def isWs (c : Char) : Bool :=
  c = ' ' ∨ c = '\t' ∨ c = '\n' ∨ c = '\r' ∨ c = '\x0b' ∨ c = '\x0c'

/-- Embedding of `trim`: strip whitespace from both ends of a string. -/
def trim (l : List Char) : List Char :=
  ((l.dropWhile isWs).reverse.dropWhile isWs).reverse

/-- ASCII decimal digit (`\d` in the source regexes). -/
def isDigitChar (c : Char) : Bool := '0' ≤ c ∧ c ≤ '9'

/-- Numeric value of a digit string, as `parseInt(s, 10)` on an all-digit
string. -/
def digitsToNat (l : List Char) : Nat :=
  l.foldl (fun acc c => 10 * acc + (c.toNat - 48)) 0

/-- A parsed semver value, as returned by `parse` in `node/lib/semver.js`:
`{major, minor, patch, prerelease}` with `prerelease: string|null`. -/
structure Version where
  major : Nat
  minor : Nat
  patch : Nat
  prerelease : Option (List Char)
deriving DecidableEq, Repr

/-- Characters allowed in a prerelease tag: the class `[a-zA-Z0-9.-]` of the
version regex in `node/lib/semver.js`. -/
def isPreChar (c : Char) : Bool :=
  isDigitChar c ∨ ('a' ≤ c ∧ c ≤ 'z') ∨ ('A' ≤ c ∧ c ≤ 'Z') ∨ c = '.' ∨ c = '-'

/-- Embedding of `version.replace(/^v/, '')`: strip one leading `v`. -/
def stripLeadingV (l : List Char) : List Char :=
  match l with
  | c :: rest => if c = 'v' then rest else l
  | [] => l

/-- The anchored regex `^(\d+)\.(\d+)\.(\d+)(?:-([a-zA-Z0-9.-]+))?` of
`parse` in `node/lib/semver.js`: three maximal digit runs separated by
dots, an optional prerelease group matching only when a `-` is followed by
at least one class character, and any trailing content ignored. -/
def semverMatch (cleaned : List Char) : Option Version :=
  let (d1, r1) := cleaned.span isDigitChar
  if d1 = [] then none
  else match r1 with
    | '.' :: r2 =>
      let (d2, r3) := r2.span isDigitChar
      if d2 = [] then none
      else match r3 with
        | '.' :: r4 =>
          let (d3, r5) := r4.span isDigitChar
          if d3 = [] then none
          else
            let pre := match r5 with
              | '-' :: r6 =>
                let p := r6.takeWhile isPreChar
                if p = [] then none else some p
              | _ => none
            some ⟨digitsToNat d1, digitsToNat d2, digitsToNat d3, pre⟩
        | _ => none
    | _ => none

/-- Embedding of `parse(version)` from `node/lib/semver.js`: returns `null` on a falsy
or non-matching input, else matches the version regex after stripping one
leading `v`. -/
def parse (version : List Char) : Option Version :=
  if version = [] then none else semverMatch (stripLeadingV version)

/-- Primary collation weight of an ASCII character under the ICU root
collation: punctuation sorts below digits, digits below letters, and upper-
and lowercase forms of the same letter share one primary weight. -/
def primaryWeight (c : Char) : Nat :=
  if 'A' ≤ c ∧ c ≤ 'Z' then 1000 + (c.toNat - 65)
  else if 'a' ≤ c ∧ c ≤ 'z' then 1000 + (c.toNat - 97)
  else if isDigitChar c then 500 + (c.toNat - 48)
  else c.toNat

/-- Tertiary (case) collation weight under the ICU root collation:
lowercase orders before uppercase when the primary weights tie. -/
def tertiaryWeight (c : Char) : Nat :=
  if 'A' ≤ c ∧ c ≤ 'Z' then 1 else 0

/-- Lexicographic comparison of two weight sequences, a shorter sequence
ordering before any proper extension of it. -/
def listLexCompare : List Nat → List Nat → Int
  | [], [] => 0
  | [], _ :: _ => -1
  | _ :: _, [] => 1
  | a :: as, b :: bs => if a < b then -1 else if b < a then 1 else listLexCompare as bs

/-- Model of the JavaScript host function `String.prototype.localeCompare`
called with no locale argument, as used by `compare` in
`node/lib/semver.js`.  This is not repository code; it is modelled from the
documented behaviour of the default-locale (ICU root) collation on ASCII
strings: strings compare first by their primary (case-insensitive) weights
and, when those tie, by case, lowercase first.  In particular
`"a".localeCompare("B") < 0` while `'B' < 'a'` as code points. -/
def localeCompare (a b : List Char) : Int :=
  let p := listLexCompare (a.map primaryWeight) (b.map primaryWeight)
  if p ≠ 0 then p else listLexCompare (a.map tertiaryWeight) (b.map tertiaryWeight)

/-- Embedding of `compare(a, b)` from `node/lib/semver.js`: numeric-component
differences, then stable above prerelease, then `localeCompare` on the
prerelease tags.  Negative means `a < b`, zero equal, positive `a > b`. -/
def compare (a b : Version) : Int :=
  if a.major ≠ b.major then (a.major : Int) - b.major
  else if a.minor ≠ b.minor then (a.minor : Int) - b.minor
  else if a.patch ≠ b.patch then (a.patch : Int) - b.patch
  else match a.prerelease, b.prerelease with
    | some _, none => -1
    | none, some _ => 1
    | some p, some q => localeCompare p q
    | none, none => 0

/-- Embedding of `equal(a, b)` from `node/lib/semver.js`: parse both, `false` if either
fails, else compare for equality. -/
def equal (a b : List Char) : Bool :=
  match parse a, parse b with
  | some pa, some pb => compare pa pb == 0
  | _, _ => false

/-- The character class `[~^><=*x]` used by `satisfies` and
`isExactVersion` in `node/lib/semver.js` to detect range operators. -/
def isRangeOp (c : Char) : Bool :=
  c = '~' ∨ c = '^' ∨ c = '>' ∨ c = '<' ∨ c = '=' ∨ c = '*' ∨ c = 'x'

/-- The partial-wildcard regex `^(\d+)\.([x*]|(\d+)\.[x*])$` of
`satisfies`: returns the major and optional minor on a match. -/
def wildcardMatch (l : List Char) : Option (Nat × Option Nat) :=
  let (d1, r1) := l.span isDigitChar
  if d1 = [] then none
  else match r1 with
    | '.' :: r2 =>
      match r2 with
      | [c] => if c = 'x' ∨ c = '*' then some (digitsToNat d1, none) else none
      | _ =>
        let (d2, r3) := r2.span isDigitChar
        if d2 = [] then none
        else match r3 with
          | ['.', c] =>
            if c = 'x' ∨ c = '*' then some (digitsToNat d1, some (digitsToNat d2)) else none
          | _ => none
    | _ => none

/-- The range-specifier branch that `satisfies` in `node/lib/semver.js`
selects from its `range` argument alone, in source order: exact match when
no operator character occurs in the text, then the `^`, `~`, `>=`, `<=`,
`>`, `<`, `=` prefixes, then the whole-string wildcards `*`/`x`, then the
partial-wildcard regex; anything else falls through to the final
`return false`.  Every test in the source branch chain reads only the
range text, so factoring the selection out of `satisfies` changes
nothing. -/
inductive RangeForm where
  | exact (r : Option Version)
  | caret (r : Option Version)
  | tilde (r : Option Version)
  | ge (r : Option Version)
  | le (r : Option Version)
  | gt (r : Option Version)
  | lt (r : Option Version)
  | eq (r : Option Version)
  | star
  | wildcard (maj : Nat) (mino : Option Nat)
  | unrecognized
deriving DecidableEq, Repr

/-- The branch selection of `satisfies`, in the order of its source. -/
def rangeForm (range : List Char) : RangeForm :=
  if range.any isRangeOp = false then .exact (parse range)
  else if range.take 1 = ['^'] then .caret (parse (range.drop 1))
  else if range.take 1 = ['~'] then .tilde (parse (range.drop 1))
  else if range.take 2 = ['>', '='] then .ge (parse (range.drop 2))
  else if range.take 2 = ['<', '='] then .le (parse (range.drop 2))
  else if range.take 1 = ['>'] then .gt (parse (range.drop 1))
  else if range.take 1 = ['<'] then .lt (parse (range.drop 1))
  else if range.take 1 = ['='] then .eq (parse (range.drop 1))
  else if range = ['*'] ∨ range = ['x'] then .star
  else match wildcardMatch range with
    | some (maj, mino) => .wildcard maj mino
    | none => .unrecognized

/-- Embedding of `satisfies(version, range)` from `node/lib/semver.js`: `false` on a
falsy argument or an unparseable version, else the check of the branch
`rangeForm` selects — each arm below mirrors the corresponding source
branch body, and a failed parse of the range text inside a branch returns
`false`. -/
def satisfies (version range : List Char) : Bool :=
  if version = [] ∨ range = [] then false
  else match parse version with
  | none => false
  | some v =>
    match rangeForm range with
    | .exact none | .caret none | .tilde none | .ge none
    | .le none | .gt none | .lt none | .eq none | .unrecognized => false
    | .exact (some r) => compare v r == 0
    | .caret (some r) =>
      if v.major ≠ r.major then false
      else if r.major = 0 then
        if v.minor ≠ r.minor then false
        else if r.minor = 0 then decide (r.patch ≤ v.patch)
        else decide (0 ≤ compare v r)
      else decide (0 ≤ compare v r)
    | .tilde (some r) =>
      if v.major ≠ r.major ∨ v.minor ≠ r.minor then false
      else decide (r.patch ≤ v.patch)
    | .ge (some r) => decide (0 ≤ compare v r)
    | .le (some r) => decide (compare v r ≤ 0)
    | .gt (some r) => decide (0 < compare v r)
    | .lt (some r) => decide (compare v r < 0)
    | .eq (some r) => compare v r == 0
    | .star => true
    | .wildcard maj none => v.major == maj
    | .wildcard maj (some mino) => v.major == maj && v.minor == mino

/-- Embedding of `isExactVersion(versionSpec)` from `node/lib/semver.js`: `false` on a
falsy input or one holding a range-operator character, else whether the
text parses as a version. -/
def isExactVersion (versionSpec : List Char) : Bool :=
  if versionSpec = [] then false
  else if versionSpec.any isRangeOp then false
  else (parse versionSpec).isSome

/-- Embedding of `String.prototype.split(sep)` for a one-character separator, as used
on `'\n'` and `','` by `parseIoCCsv` in `node/lib/ioc.js`. -/
def splitOnCharAux (sep : Char) : List Char → List Char → List (List Char)
  | [], acc => [acc.reverse]
  | c :: rest, acc =>
    if c = sep then acc.reverse :: splitOnCharAux sep rest []
    else splitOnCharAux sep rest (c :: acc)

/-- Embedding of `l.split(sep)` for a one-character separator. -/
def splitOnChar (sep : Char) (l : List Char) : List (List Char) :=
  splitOnCharAux sep l []

/-- Embedding of `versionSpec.split('||')` from `parseIoCCsv`: split on the literal
two-character separator, left to right, non-overlapping. -/
def splitBarsAux : List Char → List Char → List (List Char)
  | '|' :: '|' :: rest, acc => acc.reverse :: splitBarsAux rest []
  | c :: rest, acc => splitBarsAux rest (c :: acc)
  | [], acc => [acc.reverse]

/-- Embedding of `versionSpec.split('||')`. -/
def splitBars (l : List Char) : List (List Char) :=
  splitBarsAux l []

/-- Embedding of `versionPart.replace(/^=\s*/, '')` from `parseIoCCsv`: drop one
leading `=` together with the whitespace following it. -/
def stripEq (l : List Char) : List Char :=
  match l with
  | '=' :: rest => rest.dropWhile isWs
  | _ => l

/-- The IoC table: a JS `Map` (resp. Go `map`) from package name to the
accumulated list of compromised version strings, modelled as an
insertion-ordered association list with unique keys. -/
abbrev IoCMap := List (List Char × List (List Char))

/-- Embedding of `iocMap.get(name)` — the versions recorded for a package, if any. -/
def mapGet (m : IoCMap) (k : List Char) : Option (List (List Char)) :=
  (m.find? (fun e => e.1 == k)).map (·.2)

/-- Append versions to a package's entry, creating the entry when absent:
the `has`/`set`/`get`/`push` sequence of `parseIoCCsv`, and
`iocMap[packageName] = append(iocMap[packageName], version)` in Go. -/
def mapAppend (m : IoCMap) (k : List Char) (vs : List (List Char)) : IoCMap :=
  if (m.find? (fun e => e.1 == k)).isSome then
    m.map (fun e => if e.1 == k then (e.1, e.2 ++ vs) else e)
  else m ++ [(k, vs)]

/-- Handling of one data line by `parseIoCCsv` in `node/lib/ioc.js`: trim
the line, skip if empty, destructure the first two comma-separated cells,
skip if either is falsy, then record every `||`-joined sub-token whose
text is non-empty after stripping the `=` prefix and whitespace.  Note
that the package's map entry is created before any version is pushed. -/
def parseIoCLine (m : IoCMap) (line : List Char) : IoCMap :=
  let t := trim line
  if t = [] then m
  else match splitOnChar ',' t with
    | packageName :: versionSpec :: _ =>
      if packageName = [] ∨ versionSpec = [] then m
      else
        let pkgName := trim packageName
        let versionParts := (splitBars versionSpec).map trim
        let versions := (versionParts.map (fun p => trim (stripEq p))).filter
          (fun v => !v.isEmpty)
        mapAppend m pkgName versions
    | _ => m

/-- Embedding of `parseIoCCsv(csvText)` from `node/lib/ioc.js`: split into lines, skip
the header row, and fold every further line into the map. -/
def parseIoCCsv (csvText : List Char) : IoCMap :=
  match splitOnChar '\n' csvText with
  | [] => []
  | _header :: rest => rest.foldl parseIoCLine []

/-- Finding severity (`formatter.Severity` in Go, the `severity` string
field in Node). -/
inductive Severity where
  | direct
  | transitive
  | potential
deriving DecidableEq, Repr

/-- A normalized declared-dependency record as produced by the manifest
parsers: `{name, versionSpec, type, filePath}` (the section type plays no
role in matching and is omitted). -/
structure Dependency where
  name : List Char
  versionSpec : List Char
  filePath : List Char
deriving DecidableEq, Repr

/-- A Node finding object as built by `node/lib/matcher.js`:
`declaredSpec` is present only on POTENTIAL findings. -/
structure Finding where
  packageName : List Char
  version : List Char
  severity : Severity
  location : List Char
  declaredSpec : Option (List Char)
deriving DecidableEq, Repr

/-- The inner `for ... break` loop of `matchPotentialDependencies` in
`node/lib/matcher.js`: the first IoC version satisfying the declared
range, if any.  (`satisfies` is total, so the `try/catch` around it never
fires.) -/
def firstSatisfying (iocVersions : List (List Char)) (spec : List Char) :
    Option (List Char) :=
  iocVersions.find? (fun iocVersion => satisfies iocVersion spec)

/-- Embedding of `matchPotentialDependencies(dependencies, iocMap)` from
`node/lib/matcher.js` (the multi-version generation): skip packages not in
the table or with an empty version list, skip exact specifiers, and emit
at most one POTENTIAL finding per dependency — the loop `break`s at the
first satisfying IoC version. -/
def matchPotentialDependencies (dependencies : List Dependency)
    (iocMap : IoCMap) : List Finding :=
  match dependencies with
  | [] => []
  | dep :: rest =>
    let tail := matchPotentialDependencies rest iocMap
    match mapGet iocMap dep.name with
    | none => tail
    | some iocVersions =>
      if iocVersions = [] then tail
      else if isExactVersion dep.versionSpec then tail
      else match firstSatisfying iocVersions dep.versionSpec with
        | some iocVersion =>
          ⟨dep.name, iocVersion, .potential, dep.filePath, some dep.versionSpec⟩ :: tail
        | none => tail

end NpmScan

namespace NpmScan.Go

open NpmScan

/-- A `formatter.Match` from `go/pkg/formatter/types.go`: `DeclaredSpec`
is a plain string, empty when unset. -/
structure Match where
  packageName : List Char
  version : List Char
  severity : Severity
  location : List Char
  declaredSpec : List Char
deriving DecidableEq, Repr

/-- The string value of a `formatter.Severity` constant. -/
def severityChars : Severity → List Char
  | .direct => "DIRECT".data
  | .transitive => "TRANSITIVE".data
  | .potential => "POTENTIAL".data

/-- The deduplication key `fmt.Sprintf("%s@%s:%s", match.PackageName,
match.Version, match.Severity)` of `DeduplicateMatches`. -/
def matchKey (m : Match) : List Char :=
  m.packageName ++ '@' :: (m.version ++ ':' :: severityChars m.severity)

/-- The loop of `DeduplicateMatches`, with the `seen` map of keys carried
explicitly (only membership is consulted, so a list models the Go map). -/
def dedupeAux : List Match → List (List Char) → List Match
  | [], _ => []
  | m :: rest, seen =>
    if matchKey m ∈ seen then dedupeAux rest seen
    else m :: dedupeAux rest (matchKey m :: seen)

/-- Embedding of `DeduplicateMatches(matches)` from `go/pkg/matcher/matcher.go`: single
pass, keep a match only when its formatted key is unseen. -/
def DeduplicateMatches (ms : List Match) : List Match :=
  dedupeAux ms []

/-- Drop one leading `\r`, at the end of a record line, as Go
`encoding/csv` normalizes `\r\n` line endings. -/
def stripCR (l : List Char) : List Char :=
  match l.reverse with
  | '\r' :: r => r.reverse
  | _ => l

/-- Embedding of `strings.TrimPrefix(versionSpec, "=")`: drop one leading `=`. -/
def goTrimEq (l : List Char) : List Char :=
  match l with
  | '=' :: rest => rest
  | _ => l

/-- Embedding of `ParseCSV(data)` from `go/pkg/ioc/fetcher.go`, restricted to input
without quoted fields in which every data row holds exactly two
comma-separated cells (other inputs make the underlying `encoding/csv`
reader fail and are not what any claim evaluates): skip the header, skip
blank lines, trim both cells, skip rows with an empty cell, strip one `=`
prefix and surrounding whitespace from the version cell, and append the
remaining text — never split on `||` — as one version string. -/
def ParseCSV (data : List Char) : IoCMap :=
  let records := ((splitOnChar '\n' data).map stripCR).filter (fun l => !l.isEmpty)
  match records with
  | [] => []
  | _header :: rest =>
    rest.foldl (fun m record =>
      match splitOnChar ',' record with
      | c0 :: c1 :: _ =>
        let packageName := trim c0
        let versionSpec := trim c1
        if packageName = [] ∨ versionSpec = [] then m
        else mapAppend m packageName [trim (goTrimEq versionSpec)]
      | _ => m) []

/-- Model of `semver.NewVersion` from the external Masterminds/semver v3
library (a dependency of `go/pkg/matcher`, not repository code),
restricted to the version shapes the claims evaluate it on: an optional
leading `v`, one to three dot-separated all-digit parts (missing parts
default to zero), an optional `-prerelease` consuming the rest, and
nothing else. -/
def mastermindsVersion (l : List Char) : Option Version :=
  let cleaned := match l with
    | 'v' :: rest => rest
    | x => x
  let (d1, r1) := cleaned.span isDigitChar
  if d1 = [] then none
  else match r1 with
    | [] => some ⟨digitsToNat d1, 0, 0, none⟩
    | '.' :: r2 =>
      let (d2, r3) := r2.span isDigitChar
      if d2 = [] then none
      else match r3 with
        | [] => some ⟨digitsToNat d1, digitsToNat d2, 0, none⟩
        | '.' :: r4 =>
          let (d3, r5) := r4.span isDigitChar
          if d3 = [] then none
          else match r5 with
            | [] => some ⟨digitsToNat d1, digitsToNat d2, digitsToNat d3, none⟩
            | '-' :: r6 =>
              if r6 ≠ [] ∧ r6.all isPreChar then
                some ⟨digitsToNat d1, digitsToNat d2, digitsToNat d3, some r6⟩
              else none
            | _ => none
        | _ => none
    | _ => none

/-- Model of `semver.NewConstraint` from the external Masterminds/semver
v3 library, restricted to a single caret constraint `^a.b.c` — the only
constraint shape any claim evaluates it on. -/
def goConstraintParse (spec : List Char) : Option Version :=
  match spec with
  | '^' :: rest => mastermindsVersion rest
  | _ => none

/-- Model of the Masterminds caret-constraint check: `^a.b.c` admits the
versions at least `a.b.c` with the same major (and, when the major is
zero, the same minor; when that is also zero, the same patch). -/
def mastermindsCaretCheck (v r : Version) : Bool :=
  if r.major ≠ 0 then v.major == r.major && decide (0 ≤ compare v r)
  else if r.minor ≠ 0 then
    v.major == 0 && v.minor == r.minor && decide (0 ≤ compare v r)
  else v.major == 0 && v.minor == 0 && v.patch == r.patch && decide (0 ≤ compare v r)

/-- Embedding of `isExactVersion` from `go/pkg/matcher/matcher.go` (distinct from the
Node function of the same name): trim, reject on any of `^~><*|`, reject
URL-like and `latest`/empty specs, else whether the external
`semver.NewVersion` (modelled by `mastermindsVersion`) succeeds. -/
def goIsExactVersion (spec : List Char) : Bool :=
  let s := trim spec
  if s.any (fun c => c = '^' ∨ c = '~' ∨ c = '>' ∨ c = '<' ∨ c = '*' ∨ c = '|') then false
  else if "file:".data.isPrefixOf s ∨ "git:".data.isPrefixOf s
      ∨ "http:".data.isPrefixOf s ∨ "https:".data.isPrefixOf s
      ∨ s = "latest".data ∨ s = [] then false
  else (mastermindsVersion s).isSome

/-- Embedding of `isSemverRange` from `go/pkg/matcher/matcher.go`: trim, reject
URL-like, `latest`, `*` and empty specs, else whether the external
`semver.NewConstraint` (modelled by `goConstraintParse`) succeeds. -/
def isSemverRange (spec : List Char) : Bool :=
  let s := trim spec
  if "file:".data.isPrefixOf s ∨ "git:".data.isPrefixOf s
      ∨ "http:".data.isPrefixOf s ∨ "https:".data.isPrefixOf s
      ∨ s = "latest".data ∨ s = ['*'] ∨ s = [] then false
  else (goConstraintParse s).isSome

/-- Helper: `goDropPre p l` models `strings.TrimPrefix(l, p)`. -/
def goDropPre (p l : List Char) : List Char :=
  if p.isPrefixOf l then l.drop p.length else l

/-- Embedding of `cleanVersionSpec` from `go/pkg/matcher/matcher.go`: trim, strip each
operator string in order, trim again. -/
def cleanVersionSpec (spec : List Char) : List Char :=
  let s0 := trim spec
  let s1 := goDropPre ['^'] s0
  let s2 := goDropPre ['~'] s1
  let s3 := goDropPre ['>', '='] s2
  let s4 := goDropPre ['<', '='] s3
  let s5 := goDropPre ['>'] s4
  let s6 := goDropPre ['<'] s5
  let s7 := goDropPre ['='] s6
  trim s7

/-- Embedding of `versionSatisfiesRange(version, rangeSpec)` from
`go/pkg/matcher/matcher.go`: parse the version (fail → false), parse the
constraint (fail → fall back to string equality against the cleaned
spec), else check the constraint. -/
def versionSatisfiesRange (version rangeSpec : List Char) : Bool :=
  match mastermindsVersion version with
  | none => false
  | some v =>
    match goConstraintParse rangeSpec with
    | none => version == cleanVersionSpec rangeSpec
    | some r => mastermindsCaretCheck v r

/-- Embedding of `MatchPotential(manifest, iocDB, filePath)` from
`go/pkg/matcher/matcher.go`, taken at the level of the dependency records
`parser.ExtractDependencies` yields from the manifest: skip exact and
non-semver specs, then append one POTENTIAL match — carrying the declared
spec — per vulnerable version satisfying the range, with no early exit. -/
def MatchPotential (deps : List Dependency) (iocDB : IoCMap) : List Match :=
  match deps with
  | [] => []
  | dep :: rest =>
    let tail := MatchPotential rest iocDB
    if goIsExactVersion dep.versionSpec then tail
    else if !isSemverRange dep.versionSpec then tail
    else match mapGet iocDB dep.name with
      | none => tail
      | some vulnerableVersions =>
        (vulnerableVersions.filterMap (fun vulnVer =>
          if versionSatisfiesRange vulnVer dep.versionSpec then
            some ⟨dep.name, vulnVer, .potential, dep.filePath, dep.versionSpec⟩
          else none)) ++ tail

end NpmScan.Go

namespace NpmScan

/-- Spec-side definition: strict lexicographic order on the numeric
triples (major, minor, patch) of two versions. -/
def tripleLt (a b : Version) : Prop :=
  a.major < b.major ∨
    (a.major = b.major ∧
      (a.minor < b.minor ∨ (a.minor = b.minor ∧ a.patch < b.patch)))

instance (a b : Version) : Decidable (tripleLt a b) := by
  unfold tripleLt
  infer_instance

/-- The `Ordering` named by the sign of a comparator's integer result. -/
def intSign (i : Int) : Ordering :=
  if i < 0 then .lt else if i = 0 then .eq else .gt

/-- Spec-side definition of the total order on versions, following the
amended claim's words: lexicographic on the numeric triple first; for
equal triples a version with no prerelease tag orders after one with a
tag; two tags are ordered by the default-locale collation
(`localeCompare`), not by raw code points. -/
def specVersionOrder (a b : Version) : Ordering :=
  if tripleLt a b then .lt
  else if tripleLt b a then .gt
  else match a.prerelease, b.prerelease with
    | none, none => .eq
    | some _, none => .lt
    | none, some _ => .gt
    | some p, some q => intSign (localeCompare p q)

/-- Spec-side definition of deduplication: keep each finding whose key is
new, i.e. keep the head and recurse on the tail purged of the head's
key. -/
def specKeep (l : List Go.Match) : List Go.Match :=
  match l with
  | [] => []
  | m :: rest =>
    m :: specKeep (rest.filter (fun m2 => !(Go.matchKey m2 == Go.matchKey m)))
termination_by l.length
decreasing_by
  simp only [List.length_cons]
  exact Nat.lt_succ_of_le (List.length_filter_le _ _)

/-- Every version list stored in an IoC table is free of empty strings. -/
def mapVersionsNonEmpty (m : IoCMap) : Prop :=
  ∀ e ∈ m, ∀ v ∈ e.2, v ≠ []

end NpmScan

namespace NpmScan

lemma parse_nil : parse [] = none := rfl

lemma parse_ne_nil {version : List Char} {v : Version}
    (h : parse version = some v) : version ≠ [] := by
  intro he
  rw [he, parse_nil] at h
  exact Option.noConfusion h

lemma satisfies_of_form_none (version range : List Char)
    (h : rangeForm range = .exact none ∨ rangeForm range = .unrecognized) :
    satisfies version range = false := by
  unfold satisfies
  by_cases hv : version = [] ∨ range = []
  · rw [if_pos hv]
  · rw [if_neg hv]
    cases hp : parse version with
    | none => rfl
    | some v => rcases h with h | h <;> rw [h]

lemma satisfies_congr_range (version r₁ r₂ : List Char) (h₁ : r₁ ≠ [])
    (h₂ : r₂ ≠ []) (h : rangeForm r₁ = rangeForm r₂) :
    satisfies version r₁ = satisfies version r₂ := by
  unfold satisfies
  by_cases hv : version = []
  · rw [if_pos (Or.inl hv), if_pos (Or.inl hv)]
  · rw [if_neg (by push_neg; exact ⟨hv, h₁⟩), if_neg (by push_neg; exact ⟨hv, h₂⟩)]
    cases hp : parse version with
    | none => rfl
    | some v => rw [h]

end NpmScan

namespace NpmScan

lemma semverMatch_space (rest : List Char) : semverMatch (' ' :: rest) = none := by
  unfold semverMatch
  rw [List.span_eq_take_drop, List.takeWhile_cons,
    (by decide : isDigitChar ' ' = false)]
  rfl

lemma parse_space_cons (rest : List Char) : parse (' ' :: rest) = none := by
  unfold parse
  rw [if_neg (List.cons_ne_nil _ _)]
  show semverMatch (if ' ' = 'v' then rest else ' ' :: rest) = none
  rw [if_neg (by decide)]
  exact semverMatch_space rest

lemma wildcardMatch_space (rest : List Char) : wildcardMatch (' ' :: rest) = none := by
  unfold wildcardMatch
  rw [List.span_eq_take_drop, List.takeWhile_cons,
    (by decide : isDigitChar ' ' = false)]
  rfl

lemma rangeForm_space_cons (rest : List Char) :
    rangeForm (' ' :: rest) = .exact none ∨ rangeForm (' ' :: rest) = .unrecognized := by
  unfold rangeForm
  by_cases ha : (' ' :: rest).any isRangeOp = false
  · rw [if_pos ha, parse_space_cons]
    exact Or.inl rfl
  · rw [if_neg ha]
    rw [if_neg (by simp [List.take_succ_cons]),
      if_neg (by simp [List.take_succ_cons]),
      if_neg (by simp [List.take_succ_cons]),
      if_neg (by simp [List.take_succ_cons]),
      if_neg (by simp [List.take_succ_cons]),
      if_neg (by simp [List.take_succ_cons]),
      if_neg (by simp [List.take_succ_cons]),
      if_neg (by simp),
      wildcardMatch_space]
    exact Or.inr rfl

end NpmScan

namespace NpmScan

lemma satisfies_false_forms (version range : List Char)
    (h : rangeForm range ∈ [RangeForm.exact none, .caret none, .tilde none,
      .ge none, .le none, .gt none, .lt none, .eq none, .unrecognized]) :
    satisfies version range = false := by
  unfold satisfies
  by_cases hv : version = [] ∨ range = []
  · rw [if_pos hv]
  · rw [if_neg hv]
    cases hp : parse version with
    | none => rfl
    | some v =>
      simp only [List.mem_cons, List.not_mem_nil, or_false] at h
      rcases h with h | h | h | h | h | h | h | h | h <;> rw [h]

end NpmScan

/-- C10: `satisfies` performs no whitespace trimming on its specifier
argument: for every version string and every specifier beginning with a
space character the result is `false`, even when the same specifier
without the leading space would be satisfied. -/
theorem c10_no_specifier_trimming :
    NpmScan.satisfies "1.5.0".data " ^1.0.0".data = false ∧
    NpmScan.satisfies "1.5.0".data "^1.0.0".data = true ∧
    NpmScan.satisfies "1.2.3".data " 1.2.3".data = false ∧
    NpmScan.satisfies "1.2.3".data "1.2.3".data = true ∧
    ∀ (version rest : List Char),
      NpmScan.satisfies version (' ' :: rest) = false := by
  refine ⟨by decide, by decide, by decide, by decide, fun version rest => ?_⟩
  exact NpmScan.satisfies_of_form_none version (' ' :: rest)
    (NpmScan.rangeForm_space_cons rest)

/-- C9: the string `1.2.3-x` is a valid exact version (it parses, with
prerelease tag `x`), yet as a specifier it satisfies no version at all —
the `x` routes it away from the exact-match branch, and it fits no caret,
tilde, comparator, or wildcard branch either. -/
theorem c9_x_prerelease_specifier_satisfies_nothing :
    NpmScan.parse "1.2.3-x".data = some ⟨1, 2, 3, some ['x']⟩ ∧
    NpmScan.isExactVersion "1.2.3-x".data = false ∧
    ∀ version : List Char, NpmScan.satisfies version "1.2.3-x".data = false := by
  refine ⟨by decide, by decide, fun version => ?_⟩
  exact NpmScan.satisfies_of_form_none version _ (Or.inr (by decide))

/-- C2 counterexample: the malformed compound specifier
`>=1.0.0 <2.0.0 <<bad` does not fail closed — `satisfies` recognizes its
`>=` prefix, parses `1.0.0` out of the remainder ignoring the trailing
garbage, and a declared record with that specifier yields a POTENTIAL
finding when the IoC table lists an in-range version such as `1.5.0`. -/
theorem c2_counterexample_malformed_range_matches :
    NpmScan.satisfies "1.5.0".data ">=1.0.0 <2.0.0 <<bad".data = true ∧
    NpmScan.matchPotentialDependencies
        [⟨"pkg".data, ">=1.0.0 <2.0.0 <<bad".data, "/p/package.json".data⟩]
        [("pkg".data, ["1.5.0".data])] =
      [⟨"pkg".data, "1.5.0".data, .potential, "/p/package.json".data,
        some ">=1.0.0 <2.0.0 <<bad".data⟩] :=
  ⟨by decide, by decide⟩

/-- C2 amended: a specifier recognized by none of the range grammars
satisfies no version (fail closed) — for example `<<bad` — but
`>=1.0.0 <2.0.0 <<bad` is not such a specifier: `satisfies` treats it
exactly as `>=1.0.0`, because the comparator branch parses the version
prefix of the remainder and ignores everything after it. -/
theorem c2_amended_fail_closed_scope :
    (∀ version : List Char, NpmScan.satisfies version "<<bad".data = false) ∧
    (∀ version : List Char,
      NpmScan.satisfies version ">=1.0.0 <2.0.0 <<bad".data =
        NpmScan.satisfies version ">=1.0.0".data) := by
  constructor
  · intro version
    exact NpmScan.satisfies_false_forms version _ (by decide)
  · intro version
    exact NpmScan.satisfies_congr_range version _ _ (by decide) (by decide) (by decide)

/-- C1: on the claim's own example — IoC versions 4.17.19 and 4.17.20 for
lodash, declared record `(lodash, "^4.17.0")` — the Node classifier
`matchPotentialDependencies` emits exactly ONE potential finding, its
inner loop breaking at the first satisfying version, while the Go
`MatchPotential` emits the two findings the claim describes. -/
theorem c1_node_potential_stops_at_first_match :
    NpmScan.matchPotentialDependencies
        [⟨"lodash".data, "^4.17.0".data, "/test/package.json".data⟩]
        [("lodash".data, ["4.17.19".data, "4.17.20".data])] =
      [⟨"lodash".data, "4.17.19".data, .potential, "/test/package.json".data,
        some "^4.17.0".data⟩] ∧
    (NpmScan.Go.MatchPotential
        [⟨"lodash".data, "^4.17.0".data, "/test/package.json".data⟩]
        [("lodash".data, ["4.17.19".data, "4.17.20".data])]).map
          NpmScan.Go.Match.version = ["4.17.19".data, "4.17.20".data] :=
  ⟨by decide, by decide⟩

/-- C3: the Node table builder records the three `||`-joined versions of
the claim's example row separately, in order, with `=` prefixes and
whitespace stripped; the Go `ParseCSV` on the same row never splits on
`||` and stores the whole remainder as a single version string. -/
theorem c3_multi_version_cell_node_splits_go_does_not :
    NpmScan.parseIoCCsv
        "Package,Version\n@zapier/ai-actions,= 0.1.18 || = 0.1.19 || = 0.1.20".data =
      [("@zapier/ai-actions".data,
        ["0.1.18".data, "0.1.19".data, "0.1.20".data])] ∧
    NpmScan.Go.ParseCSV
        "Package,Version\n@zapier/ai-actions,= 0.1.18 || = 0.1.19 || = 0.1.20".data =
      [("@zapier/ai-actions".data, ["0.1.18 || = 0.1.19 || = 0.1.20".data])] :=
  ⟨by decide, by decide⟩

/-- C4 counterexample: a row whose version cell is just `=` leaves an
empty entry in the Node table (the entry is created before any version is
pushed, and nothing survives stripping), and an empty-string version in
the Go table — the built table is not free of such residue. -/
theorem c4_counterexample_empty_residue :
    NpmScan.parseIoCCsv "Package,Version\npkg,=".data = [("pkg".data, [])] ∧
    NpmScan.Go.ParseCSV "Package,Version\npkg,=".data = [("pkg".data, [[]])] :=
  ⟨by decide, by decide⟩

/-- C8 counterexample: two findings with different
(packageName, version, severity) triples — `("p@q", "v", DIRECT)` and
`("p", "q@v", DIRECT)` — collide on the formatted key `p@q@v:DIRECT`, so
`DeduplicateMatches` drops the second: identification is by the formatted
string, not by the triple. -/
theorem c8_counterexample_key_collision :
    (NpmScan.Go.Match.mk "p@q".data "v".data .direct "L1".data []).packageName ≠
      (NpmScan.Go.Match.mk "p".data "q@v".data .direct "L2".data []).packageName ∧
    NpmScan.Go.DeduplicateMatches
        [⟨"p@q".data, "v".data, .direct, "L1".data, []⟩,
         ⟨"p".data, "q@v".data, .direct, "L2".data, []⟩] =
      [⟨"p@q".data, "v".data, .direct, "L1".data, []⟩] :=
  ⟨by decide, by decide⟩

namespace NpmScan

lemma isRangeOp_iff (c : Char) :
    isRangeOp c = true ↔
      (c = '~' ∨ c = '^' ∨ c = '>' ∨ c = '<' ∨ c = '=' ∨ c = '*' ∨ c = 'x') := by
  simp [isRangeOp]

end NpmScan

/-- C7: `isExactVersion` returns true exactly when the specifier text
contains none of the characters `^ ~ > < = * x` and additionally parses
as a bare version; in particular `file:../x`, `^1.0.0` and `latest` are
not exact while `1.2.3` is. -/
theorem c7_is_exact_characterization :
    (∀ s : List Char,
      NpmScan.isExactVersion s = true ↔
        ((∀ c ∈ s, c ≠ '^' ∧ c ≠ '~' ∧ c ≠ '>' ∧ c ≠ '<' ∧ c ≠ '=' ∧
            c ≠ '*' ∧ c ≠ 'x') ∧
          (NpmScan.parse s).isSome)) ∧
    NpmScan.isExactVersion "file:../x".data = false ∧
    NpmScan.isExactVersion "^1.0.0".data = false ∧
    NpmScan.isExactVersion "latest".data = false ∧
    NpmScan.isExactVersion "1.2.3".data = true := by
  refine ⟨fun s => ?_, by decide, by decide, by decide, by decide⟩
  unfold NpmScan.isExactVersion
  by_cases hs : s = []
  · subst hs
    simp [NpmScan.parse_nil]
  · rw [if_neg hs]
    by_cases ha : s.any NpmScan.isRangeOp = true
    · rw [if_pos ha]
      simp only [Bool.false_eq_true, false_iff]
      rintro ⟨hall, -⟩
      obtain ⟨c, hc, hop⟩ := List.any_eq_true.mp ha
      rw [NpmScan.isRangeOp_iff] at hop
      have h2 := hall c hc
      tauto
    · rw [if_neg ha]
      have ha' : s.any NpmScan.isRangeOp = false := by
        revert ha
        cases s.any NpmScan.isRangeOp <;> simp
      constructor
      · intro hsome
        refine ⟨fun c hc => ?_, hsome⟩
        have h2 := List.any_eq_false.mp ha' c hc
        rw [NpmScan.isRangeOp_iff] at h2
        tauto
      · rintro ⟨-, hsome⟩
        exact hsome

namespace NpmScan

lemma rangeForm_caret (rs : List Char) :
    rangeForm ('^' :: rs) = .caret (parse rs) := by
  unfold rangeForm
  rw [if_neg (by simp [List.any_cons, isRangeOp]),
    if_pos (by simp [List.take_succ_cons])]
  simp [List.drop_succ_cons]

lemma satisfies_caret (vs rs : List Char) (v r : Version)
    (hv : parse vs = some v) (hr : parse rs = some r) :
    satisfies vs ('^' :: rs) =
      (if v.major ≠ r.major then false
      else if r.major = 0 then
        if v.minor ≠ r.minor then false
        else if r.minor = 0 then decide (r.patch ≤ v.patch)
        else decide (0 ≤ compare v r)
      else decide (0 ≤ compare v r)) := by
  unfold satisfies
  rw [if_neg (by push_neg; exact ⟨parse_ne_nil hv, List.cons_ne_nil _ _⟩), hv,
    rangeForm_caret, hr]

end NpmScan

/-- C6: `satisfies` implements npm caret lock-down semantics — the four
cited examples hold, and in general for `^r` (with both texts parsing)
the major must equal `r`'s; when that major is zero the minor must also
match, with only the patch free to grow when the minor is zero too;
otherwise any version comparing at least `r` satisfies. -/
theorem c6_caret_lock_down (vs rs : List Char) (v r : NpmScan.Version)
    (hv : NpmScan.parse vs = some v) (hr : NpmScan.parse rs = some r) :
    (NpmScan.satisfies vs ('^' :: rs) = true ↔
      (v.major = r.major ∧
        if r.major = 0 then
          v.minor = r.minor ∧
            (if r.minor = 0 then r.patch ≤ v.patch else 0 ≤ NpmScan.compare v r)
        else 0 ≤ NpmScan.compare v r)) ∧
    NpmScan.satisfies "0.2.3".data "^0.2.0".data = true ∧
    NpmScan.satisfies "0.3.0".data "^0.2.0".data = false ∧
    NpmScan.satisfies "1.5.0".data "^1.0.0".data = true ∧
    NpmScan.satisfies "2.0.0".data "^1.0.0".data = false := by
  refine ⟨?_, by decide, by decide, by decide, by decide⟩
  rw [NpmScan.satisfies_caret vs rs v r hv hr]
  split_ifs <;> simp_all

/-- Witness for `c6_caret_lock_down` at the concrete input
`satisfies("0.2.3", "^0.2.0")`. -/
theorem c6_caret_lock_down_witness :
    NpmScan.satisfies "0.2.3".data ('^' :: "0.2.0".data) = true := by
  have h := c6_caret_lock_down "0.2.3".data "0.2.0".data ⟨0, 2, 3, none⟩
    ⟨0, 2, 0, none⟩ (by decide) (by decide)
  exact h.1.mpr (by decide)

namespace NpmScan

lemma mapVersionsNonEmpty_nil : mapVersionsNonEmpty [] := by
  intro e he
  exact absurd he (List.not_mem_nil e)

lemma mapAppend_nonEmpty {m : IoCMap} {k : List Char} {vs : List (List Char)}
    (hm : mapVersionsNonEmpty m) (hvs : ∀ v ∈ vs, v ≠ []) :
    mapVersionsNonEmpty (mapAppend m k vs) := by
  unfold mapAppend
  split_ifs with h
  · intro e he v hv
    rcases List.mem_map.mp he with ⟨e0, he0, rfl⟩
    by_cases hk : (e0.1 == k) = true
    · rw [if_pos hk] at hv
      rcases List.mem_append.mp hv with h1 | h1
      · exact hm e0 he0 v h1
      · exact hvs v h1
    · rw [if_neg hk] at hv
      exact hm e0 he0 v hv
  · intro e he v hv
    rcases List.mem_append.mp he with h1 | h1
    · exact hm e h1 v hv
    · rw [List.mem_singleton] at h1
      subst h1
      exact hvs v hv

lemma parseIoCLine_nonEmpty {m : IoCMap} (line : List Char)
    (hm : mapVersionsNonEmpty m) : mapVersionsNonEmpty (parseIoCLine m line) := by
  unfold parseIoCLine
  by_cases h1 : trim line = []
  · rwa [if_pos h1]
  · rw [if_neg h1]
    cases hsp : splitOnChar ',' (trim line) with
    | nil => exact hm
    | cons p rest =>
      cases rest with
      | nil => exact hm
      | cons vcell rest2 =>
        dsimp only
        by_cases h2 : p = [] ∨ vcell = []
        · rwa [if_pos h2]
        · rw [if_neg h2]
          apply mapAppend_nonEmpty hm
          intro x hx
          have h3 := (List.mem_filter.mp hx).2
          simp only [Bool.not_eq_true'] at h3
          intro hx0
          rw [hx0] at h3
          exact absurd h3 (by decide)

lemma foldl_parseIoCLine_nonEmpty (lines : List (List Char)) (m : IoCMap)
    (hm : mapVersionsNonEmpty m) :
    mapVersionsNonEmpty (lines.foldl parseIoCLine m) := by
  induction lines generalizing m with
  | nil => exact hm
  | cons l ls ih => exact ih _ (parseIoCLine_nonEmpty l hm)

end NpmScan

/-- C4 amended: rows with an empty or missing cell are discarded and
every version string the Node table stores is non-empty; however a row
whose version cell strips to nothing (such as a bare `=`) still creates a
package entry with an empty version list (counterexample
`c4_counterexample_empty_residue`), so packages need not map to non-empty
sequences. -/
theorem c4_amended_no_empty_version_strings :
    ∀ (csvText pkg : List Char) (versions : List (List Char)),
      NpmScan.mapGet (NpmScan.parseIoCCsv csvText) pkg = some versions →
      ∀ v ∈ versions, v ≠ [] := by
  intro csv pkg versions hget v hv
  have hne : NpmScan.mapVersionsNonEmpty (NpmScan.parseIoCCsv csv) := by
    unfold NpmScan.parseIoCCsv
    cases NpmScan.splitOnChar '\n' csv with
    | nil => exact NpmScan.mapVersionsNonEmpty_nil
    | cons hd tl =>
      exact NpmScan.foldl_parseIoCLine_nonEmpty tl [] NpmScan.mapVersionsNonEmpty_nil
  unfold NpmScan.mapGet at hget
  cases hf : (NpmScan.parseIoCCsv csv).find? (fun e => e.1 == pkg) with
  | none =>
    rw [hf, Option.map_none'] at hget
    exact Option.noConfusion hget
  | some e =>
    rw [hf] at hget
    simp only [Option.map_some', Option.some.injEq] at hget
    have he := List.mem_of_find?_eq_some hf
    exact hne e he v (hget ▸ hv)

/-- Witness for `c4_amended_no_empty_version_strings` at a concrete CSV. -/
theorem c4_amended_no_empty_version_strings_witness :
    NpmScan.mapGet (NpmScan.parseIoCCsv "Package,Version\npkg,= 1.0.0".data)
        "pkg".data = some ["1.0.0".data] ∧ "1.0.0".data ≠ [] := by
  refine ⟨by decide, ?_⟩
  exact c4_amended_no_empty_version_strings "Package,Version\npkg,= 1.0.0".data
    "pkg".data ["1.0.0".data] (by decide) "1.0.0".data (by decide)

/-- C5 counterexample: at equal numeric triples `compare` orders the
prerelease tag `B` after the tag `a`, although `'B' < 'a'` as code
points — the source routes tag comparison through the locale-aware
`localeCompare`, not ordinary code-point ordering, so the claim's example
comes out reversed. -/
theorem c5_counterexample_tag_order :
    0 < NpmScan.compare ⟨1, 0, 0, some ['B']⟩ ⟨1, 0, 0, some ['a']⟩ ∧
    'B' < 'a' :=
  ⟨by decide, by decide⟩

set_option maxHeartbeats 1600000 in
/-- C5 amended: `compare` realizes the total order that is lexicographic
on (major, minor, patch), places a tagged version before an untagged one
at equal triples, and orders two prerelease tags by the default-locale
collation (`localeCompare`) rather than by code points; under that
collation the tag `B` orders after the tag `a`. -/
theorem c5_amended_compare_realizes_order :
    (∀ a b : NpmScan.Version,
      NpmScan.intSign (NpmScan.compare a b) = NpmScan.specVersionOrder a b) ∧
    NpmScan.specVersionOrder ⟨1, 0, 0, some ['B']⟩ ⟨1, 0, 0, some ['a']⟩ =
      .gt := by
  refine ⟨fun a b => ?_, by decide⟩
  rcases a with ⟨am, ai, ap, apre⟩
  rcases b with ⟨bm, bi, bp, bpre⟩
  unfold NpmScan.compare NpmScan.specVersionOrder NpmScan.tripleLt NpmScan.intSign
  dsimp only
  rcases apre with _ | p <;> rcases bpre with _ | q <;> dsimp only <;>
    split_ifs <;> first | rfl | (exfalso; omega)

namespace NpmScan

lemma specKeep_nil : specKeep [] = [] := by
  rw [specKeep]

lemma specKeep_cons (m : Go.Match) (rest : List Go.Match) :
    specKeep (m :: rest) =
      m :: specKeep (rest.filter (fun m2 => !(Go.matchKey m2 == Go.matchKey m))) := by
  rw [specKeep]

end NpmScan

namespace NpmScan.Go

lemma dedupeAux_sublist (l : List Match) (seen : List (List Char)) :
    List.Sublist (dedupeAux l seen) l := by
  induction l generalizing seen with
  | nil => exact List.Sublist.refl _
  | cons m rest ih =>
    unfold dedupeAux
    split_ifs with h
    · exact List.Sublist.cons m (ih seen)
    · exact List.Sublist.cons₂ m (ih _)

lemma dedupeAux_eq_specKeep (l : List Match) (seen : List (List Char)) :
    dedupeAux l seen =
      specKeep (l.filter (fun m => decide (matchKey m ∉ seen))) := by
  induction l generalizing seen with
  | nil => rw [List.filter_nil, specKeep_nil]; rfl
  | cons m rest ih =>
    unfold dedupeAux
    split_ifs with h
    · rw [List.filter_cons_of_neg (by simpa using h)]
      exact ih seen
    · rw [List.filter_cons_of_pos (by simpa using h), specKeep_cons, ih]
      congr 1
      rw [List.filter_filter]
      refine congrArg specKeep ?_
      apply List.filter_congr
      intro m' _
      by_cases h1 : matchKey m' = matchKey m <;>
        by_cases h2 : matchKey m' ∈ seen <;>
        simp [h1, h2, List.mem_cons]

lemma dedupeAux_keys (l : List Match) (seen : List (List Char)) :
    (∀ m ∈ dedupeAux l seen, matchKey m ∉ seen) ∧
    ((dedupeAux l seen).map matchKey).Nodup := by
  induction l generalizing seen with
  | nil => exact ⟨fun m hm => absurd hm (List.not_mem_nil m), List.nodup_nil⟩
  | cons m rest ih =>
    unfold dedupeAux
    split_ifs with h
    · exact ih seen
    · constructor
      · intro m' hm'
        rcases List.mem_cons.mp hm' with rfl | hm'
        · exact h
        · intro hc
          exact (ih (matchKey m :: seen)).1 m' hm' (List.mem_cons_of_mem _ hc)
      · rw [List.map_cons]
        refine List.nodup_cons.mpr ⟨?_, (ih _).2⟩
        intro hc
        rcases List.mem_map.mp hc with ⟨m', hm', hkeq⟩
        refine (ih (matchKey m :: seen)).1 m' hm' ?_
        rw [hkeq]
        exact List.mem_cons_self _ _

lemma dedupeAux_id (l : List Match) (seen : List (List Char))
    (hn : (l.map matchKey).Nodup) (hd : ∀ m ∈ l, matchKey m ∉ seen) :
    dedupeAux l seen = l := by
  induction l generalizing seen with
  | nil => rfl
  | cons m rest ih =>
    unfold dedupeAux
    rw [if_neg (hd m (List.mem_cons_self m rest))]
    congr 1
    have hn' : (∀ x ∈ rest, ¬matchKey x = matchKey m) ∧
        (rest.map matchKey).Nodup := by simpa using hn
    apply ih
    · exact hn'.2
    · intro m' hm' hc
      rcases List.mem_cons.mp hc with h1 | h1
      · exact hn'.1 m' hm' h1
      · exact hd m' (List.mem_cons_of_mem m hm') h1

end NpmScan.Go

/-- C8 amended: `DeduplicateMatches` is idempotent, never lengthens its
input, returns a sublist (so surviving findings keep their first-seen
order and carry their original location and declared spec), and equals the
single-pass keep-first-occurrence function `specKeep` — but findings are
identified by the formatted key `packageName@version:severity`, which can
collide for distinct triples (counterexample
`c8_counterexample_key_collision`), not by the triple itself. -/
theorem c8_amended_dedupe_laws :
    ∀ x : List NpmScan.Go.Match,
      NpmScan.Go.DeduplicateMatches x = NpmScan.specKeep x ∧
      NpmScan.Go.DeduplicateMatches (NpmScan.Go.DeduplicateMatches x) =
        NpmScan.Go.DeduplicateMatches x ∧
      List.Sublist (NpmScan.Go.DeduplicateMatches x) x ∧
      (NpmScan.Go.DeduplicateMatches x).length ≤ x.length := by
  intro x
  refine ⟨?_, ?_, NpmScan.Go.dedupeAux_sublist x [], (NpmScan.Go.dedupeAux_sublist x []).length_le⟩
  · have h := NpmScan.Go.dedupeAux_eq_specKeep x []
    rwa [List.filter_eq_self.mpr (fun a _ => by simp)] at h
  · exact NpmScan.Go.dedupeAux_id _ [] (NpmScan.Go.dedupeAux_keys x []).2
      (fun m _ => List.not_mem_nil _)

/-- Witness for `c7_is_exact_characterization` at the concrete specifier
`1.2.3`, whose characters avoid the operator class and which parses. -/
theorem c7_is_exact_characterization_witness :
    NpmScan.isExactVersion "1.2.3".data = true :=
  (c7_is_exact_characterization.1 "1.2.3".data).mpr ⟨by decide, by decide⟩
